import Mathlib

set_option maxHeartbeats 1000000
set_option maxRecDepth 8192

/-!
Verification development for the factorio-settings property-tree codec and
settings projection (`src/codec.rs`, `src/simple.rs`, `src/types.rs`).

The wire stream is modelled as a `List Nat` whose entries denote bytes
(`u8`); every byte consumed from the stream is reduced `% 256` at the read
boundary, mirroring the `u8` type of the Rust readers.  Fallible code is
modelled with `Except`; a `todo!()` panic is modelled by the distinguished
error `panicTodo`, kept separate from the recoverable decode errors.
`f64` and `i64` payloads are carried as their raw little-endian 64-bit
patterns (a `Nat < 2^64`), exactly as the codec treats them (it only moves
the 8 bytes, it never computes with the number).
-/

namespace FactorioSettings

/-- Decode-side failure, one constructor per distinct failure source in
`codec.rs`: `eof` models an I/O error from a reader that ran out of input,
`headerByte` the `"Byte at 0x8 should be false"` error, `unknownType` the
`"Unknown type"` error, `invalidUtf8` a `String::from_utf8` failure,
`panicTodo` the `todo!()` panic of the unimplemented `Vec<Property>` codec,
and `fuelExhausted` is an artifact of the fuelled embedding (unreachable
when the fuel bounds the recursion depth, which `input.length` always
does since every recursion level consumes at least two bytes first). -/
inductive DErr where
  | eof
  | headerByte
  | unknownType (tag : Nat)
  | invalidUtf8
  | panicTodo
  | fuelExhausted
deriving DecidableEq, Repr

/-- Encode-side failure: the only non-I/O failure of `encode` is the
`todo!()` panic of the unimplemented `Vec<Property>` encoder; a pure
in-memory writer (`Vec<u8>`/`Cursor`) never raises an I/O error. -/
inductive EncErr where
  | panicTodo
deriving DecidableEq, Repr

/-- `read_u8`: consume one byte (reduced mod 256, modelling `u8`). -/
def readU8 : List Nat → Except DErr (Nat × List Nat)
  | [] => .error .eof
  | b :: rest => .ok (b % 256, rest)

/-- `read_exact` into a buffer of `n` bytes (each reduced mod 256). -/
def readN : Nat → List Nat → Except DErr (List Nat × List Nat)
  | 0, input => .ok ([], input)
  | _ + 1, [] => .error .eof
  | n + 1, b :: rest => do
      let (bs, r) ← readN n rest
      .ok (b % 256 :: bs, r)

/-- Little-endian value of a byte list (entries already < 256). -/
def leNat : List Nat → Nat
  | [] => 0
  | b :: tl => b + 256 * leNat tl

/-- The `n` little-endian base-256 digits of `v`: the fixed-width
unsigned write (`write_u16`/`write_u32`/`write_u64`), which keeps
exactly `v % 256^n`. -/
def leBytes : Nat → Nat → List Nat
  | 0, _ => []
  | n + 1, v => v % 256 :: leBytes n (v / 256)

/-- `read_u16::<LE>`. -/
def readU16 (input : List Nat) : Except DErr (Nat × List Nat) := do
  let (bs, r) ← readN 2 input
  .ok (leNat bs, r)

/-- `read_u32::<LE>`. -/
def readU32 (input : List Nat) : Except DErr (Nat × List Nat) := do
  let (bs, r) ← readN 4 input
  .ok (leNat bs, r)

/-- `read_u64::<LE>`/`read_i64::<LE>`/`read_f64::<LE>` seen as raw bits. -/
def readU64 (input : List Nat) : Except DErr (Nat × List Nat) := do
  let (bs, r) ← readN 8 input
  .ok (leNat bs, r)

/-- `loose_bool`: only the literal byte 1 decodes to true. -/
def loose_bool (input : Nat) : Bool := input == 1

/-- `loose_bool_byte`: `input as u8`. -/
def loose_bool_byte (input : Bool) : Nat := if input then 1 else 0

/-- `read_optimized_u32`: one byte, or `0xff` followed by a 4-byte LE u32. -/
def read_optimized_u32 (input : List Nat) : Except DErr (Nat × List Nat) := do
  let (b, r) ← readU8 input
  if b == 0xff then readU32 r else .ok (b, r)

/-- `write_optimized_u32` (`value` is a `u32`, so `< 2^32`). -/
def write_optimized_u32 (value : Nat) : List Nat :=
  if value < 0xff then [value] else 0xff :: leBytes 4 value

/-- `FactorioVersion` (`types.rs`): four `u16` fields, each `< 2^16`. -/
structure FactorioVersion where
  major : Nat
  minor : Nat
  patch : Nat
  build : Nat
deriving DecidableEq, Repr

mutual
/-- `Property` (`codec.rs`): one tree node, an `any_flag` and a value. -/
inductive Property where
  | mk (any_flag : Bool) (value : PropertyValue)

/-- `PropertyValue` (`codec.rs`): the tagged union of the wire format.
`double`/`integer` carry the raw 64-bit LE pattern; `string` carries the
UTF-8 bytes; `dictionary` carries the insertion-ordered key/value list
modelling `IndexMap<String, Property>`. -/
inductive PropertyValue where
  | none
  | bool (b : Bool)
  | double (bits : Nat)
  | string (s : List Nat)
  | list (l : List Property)
  | dictionary (d : EntryList)
  | integer (bits : Nat)

/-- The entry sequence of an `IndexMap<String, Property>`, in order. -/
inductive EntryList where
  | nil
  | cons (key : List Nat) (val : Property) (tl : EntryList)
end

def Property.any_flag : Property → Bool
  | .mk f _ => f

def Property.value : Property → PropertyValue
  | .mk _ v => v

/-- `Settings` (`codec.rs`): a version header plus the root property. -/
structure Settings where
  version : FactorioVersion
  properties : Property

/-- Number of entries (`IndexMap::len`). -/
def entLen : EntryList → Nat
  | .nil => 0
  | .cons _ _ tl => entLen tl + 1

/-- `IndexMap::insert`: an existing key keeps its position and gets the
new value; a new key is appended at the end. -/
def insertIM : EntryList → List Nat → Property → EntryList
  | .nil, k, v => .cons k v .nil
  | .cons k0 v0 tl, k, v =>
      if k0 = k then .cons k0 v tl else .cons k0 v0 (insertIM tl k v)

/-- `IndexMap::get`: value of the (unique) entry with the given key. -/
def lookupIM : EntryList → List Nat → Option Property
  | .nil, _ => Option.none
  | .cons k0 v0 tl, k => if k0 = k then some v0 else lookupIM tl k

/-- Whether the map already contains a key. -/
def hasKey : EntryList → List Nat → Bool
  | .nil, _ => false
  | .cons k0 _ tl, k => k0 = k || hasKey tl k

/-- `impl Codec for bool`, decode side: `read_u8` through `loose_bool`. -/
def decodeBool (input : List Nat) : Except DErr (Bool × List Nat) := do
  let (b, r) ← readU8 input
  .ok (loose_bool b, r)

/-- Continuation byte of a UTF-8 multibyte sequence. -/
def utf8Cont (c : Nat) : Bool := 0x80 ≤ c && c ≤ 0xBF

/-- `String::from_utf8` validity (the exact byte-class table UTF-8 uses,
surrogates and overlong forms rejected). -/
def validUtf8 : List Nat → Bool
  | [] => true
  | b :: rest =>
    if b < 0x80 then validUtf8 rest
    else if 0xC2 ≤ b && b ≤ 0xDF then
      match rest with
      | c :: rest2 => utf8Cont c && validUtf8 rest2
      | [] => false
    else if b == 0xE0 then
      match rest with
      | c1 :: c2 :: rest2 => (0xA0 ≤ c1 && c1 ≤ 0xBF) && utf8Cont c2 && validUtf8 rest2
      | _ => false
    else if (0xE1 ≤ b && b ≤ 0xEC) || b == 0xEE || b == 0xEF then
      match rest with
      | c1 :: c2 :: rest2 => utf8Cont c1 && utf8Cont c2 && validUtf8 rest2
      | _ => false
    else if b == 0xED then
      match rest with
      | c1 :: c2 :: rest2 => (0x80 ≤ c1 && c1 ≤ 0x9F) && utf8Cont c2 && validUtf8 rest2
      | _ => false
    else if b == 0xF0 then
      match rest with
      | c1 :: c2 :: c3 :: rest2 =>
          (0x90 ≤ c1 && c1 ≤ 0xBF) && utf8Cont c2 && utf8Cont c3 && validUtf8 rest2
      | _ => false
    else if 0xF1 ≤ b && b ≤ 0xF3 then
      match rest with
      | c1 :: c2 :: c3 :: rest2 => utf8Cont c1 && utf8Cont c2 && utf8Cont c3 && validUtf8 rest2
      | _ => false
    else if b == 0xF4 then
      match rest with
      | c1 :: c2 :: c3 :: rest2 =>
          (0x80 ≤ c1 && c1 ≤ 0x8F) && utf8Cont c2 && utf8Cont c3 && validUtf8 rest2
      | _ => false
    else false

/-- `impl Codec for String`, decode side: one is-empty byte under the
loose-boolean rule; if not empty, an optimized length, that many bytes,
and a UTF-8 validity check. -/
def decodeString (input : List Nat) : Except DErr (List Nat × List Nat) := do
  let (empty_byte, r0) ← readU8 input
  if !(loose_bool empty_byte) then do
    let (length, r1) ← read_optimized_u32 r0
    let (vec, r2) ← readN length r1
    if validUtf8 vec then .ok (vec, r2) else .error .invalidUtf8
  else .ok ([], r0)

/-- `impl Codec for String`, encode side: always the non-empty sentinel 0,
then the optimized length (`len as u32`), then the raw bytes. -/
def encodeString (s : List Nat) : List Nat :=
  0 :: (write_optimized_u32 (s.length % 4294967296) ++ s)

/-- The entry loop of `impl Codec for IndexMap<String, Property>`, decode
side: read `count` (key, value) pairs, inserting each into the map. -/
def decodeDictLoop (dec : List Nat → Except DErr (Property × List Nat)) :
    Nat → EntryList → List Nat → Except DErr (EntryList × List Nat)
  | 0, map, input => .ok (map, input)
  | n + 1, map, input => do
      let (name, r1) ← decodeString input
      let (value, r2) ← dec r1
      decodeDictLoop dec n (insertIM map name value) r2

/-- `impl Codec for Property`, decode side.  The `fuel` argument is an
artifact of the embedding bounding the recursion depth of nested
dictionaries; every level consumes at least its two header bytes before
recursing, so any fuel at least the input length never runs out. -/
def decodeProperty : Nat → List Nat → Except DErr (Property × List Nat)
  | 0, _ => .error .fuelExhausted
  | fuel + 1, input => do
      let (vtype, r0) ← readU8 input
      let (any_flag, r1) ← readU8 r0
      let (res : PropertyValue × List Nat) ←
        match vtype with
        | 0 => .ok (PropertyValue.none, r1)
        | 1 => do
            let (b, r) ← decodeBool r1
            .ok (PropertyValue.bool b, r)
        | 2 => do
            let (bits, r) ← readU64 r1
            .ok (PropertyValue.double bits, r)
        | 3 => do
            let (s, r) ← decodeString r1
            .ok (PropertyValue.string s, r)
        | 4 => .error .panicTodo
        | 5 => do
            let (count, r) ← readU32 r1
            let (d, r2) ← decodeDictLoop (decodeProperty fuel) count .nil r
            .ok (PropertyValue.dictionary d, r2)
        | 6 => do
            let (bits, r) ← readU64 r1
            .ok (PropertyValue.integer bits, r)
        | other => .error (.unknownType other)
      .ok (Property.mk (loose_bool any_flag) res.1, res.2)

/-- `impl Codec for FactorioVersion`, decode side: four LE `u16`s. -/
def decodeFactorioVersion (input : List Nat) :
    Except DErr (FactorioVersion × List Nat) := do
  let (major, r1) ← readU16 input
  let (minor, r2) ← readU16 r1
  let (patch, r3) ← readU16 r2
  let (build, r4) ← readU16 r3
  .ok (⟨major, minor, patch, build⟩, r4)

/-- `impl Codec for FactorioVersion`, encode side. -/
def encodeFactorioVersion (v : FactorioVersion) : List Nat :=
  leBytes 2 v.major ++ leBytes 2 v.minor ++ leBytes 2 v.patch ++ leBytes 2 v.build

/-- `impl Codec for Settings`, decode side: version header, one reserved
byte that must be 0, then the root property. -/
def decodeSettings (input : List Nat) : Except DErr (Settings × List Nat) := do
  let (version, r0) ← decodeFactorioVersion input
  let (b, r1) ← readU8 r0
  if b ≠ 0 then .error .headerByte
  else do
    let (properties, r2) ← decodeProperty input.length r1
    .ok (⟨version, properties⟩, r2)

mutual
/-- `impl Codec for Property`, encode side: tag byte, flag byte, payload.
The `List` arm reaches the `todo!()` of `Vec<Property>::encode`. -/
def encodeProperty : Property → Except EncErr (List Nat)
  | .mk any_flag value =>
    match value with
    | .none => .ok [0, loose_bool_byte any_flag]
    | .bool b => .ok [1, loose_bool_byte any_flag, if b then 1 else 0]
    | .double bits => .ok (2 :: loose_bool_byte any_flag :: leBytes 8 bits)
    | .string s => .ok (3 :: loose_bool_byte any_flag :: encodeString s)
    | .list _ => .error .panicTodo
    | .dictionary d => do
        let body ← encodeEntries d
        .ok (5 :: loose_bool_byte any_flag :: (leBytes 4 (entLen d) ++ body))
    | .integer bits => .ok (6 :: loose_bool_byte any_flag :: leBytes 8 bits)

/-- The entry loop of `impl Codec for IndexMap<String, Property>`, encode
side (the `u32` length prefix is written by the caller). -/
def encodeEntries : EntryList → Except EncErr (List Nat)
  | .nil => .ok []
  | .cons k v tl => do
      let bv ← encodeProperty v
      let btl ← encodeEntries tl
      .ok (encodeString k ++ bv ++ btl)
end

/-- `impl Codec for Settings`, encode side. -/
def encodeSettings (s : Settings) : Except EncErr (List Nat) := do
  let props ← encodeProperty s.properties
  .ok (encodeFactorioVersion s.version ++ 0 :: props)

/-- Keys of the map, in order. -/
def keysOf : EntryList → List (List Nat)
  | .nil => []
  | .cons k _ tl => k :: keysOf tl

/-- The `IndexMap` invariant: no key occurs twice. -/
def nodupKeys : EntryList → Bool
  | .nil => true
  | .cons k _ tl => !hasKey tl k && nodupKeys tl

mutual
/-- No `List` variant anywhere in the tree (the only shape whose codec is
the unimplemented `todo!()`). -/
def listFreeP : Property → Bool
  | .mk _ v => listFreeV v

def listFreeV : PropertyValue → Bool
  | .list _ => false
  | .dictionary d => listFreeE d
  | _ => true

def listFreeE : EntryList → Bool
  | .nil => true
  | .cons _ v tl => listFreeP v && listFreeE tl
end

mutual
/-- Well-formedness of a tree as a value of the Rust data model: strings
are valid UTF-8 byte lists shorter than 2^32, numeric payloads fit in 64
bits, dictionaries respect the `IndexMap` key-uniqueness invariant and
have fewer than 2^32 entries, and no `List` variant occurs.  Every tree
produced by a successful decode is well-formed in this sense. -/
def wfP : Property → Bool
  | .mk _ v => wfV v

def wfV : PropertyValue → Bool
  | .none => true
  | .bool _ => true
  | .double bits => decide (bits < 2 ^ 64)
  | .string s => validUtf8 s && s.all (· < 256) && decide (s.length < 2 ^ 32)
  | .list _ => false
  | .dictionary d => decide (entLen d < 2 ^ 32) && nodupKeys d && wfE d
  | .integer bits => decide (bits < 2 ^ 64)

def wfE : EntryList → Bool
  | .nil => true
  | .cons k v tl =>
      (validUtf8 k && k.all (· < 256) && decide (k.length < 2 ^ 32)) && wfP v && wfE tl
end

/-- Well-formedness of the version header: four `u16` fields. -/
def wfVersion (v : FactorioVersion) : Bool :=
  decide (v.major < 2 ^ 16) && decide (v.minor < 2 ^ 16) &&
    decide (v.patch < 2 ^ 16) && decide (v.build < 2 ^ 16)

def wfSettings (s : Settings) : Bool :=
  wfVersion s.version && wfP s.properties

def listFreeSettings (s : Settings) : Bool :=
  listFreeP s.properties

/-! ### Basic facts about the byte primitives -/

theorem readN_append (xs r : List Nat) :
    readN xs.length (xs ++ r) = .ok (xs.map (fun b => b % 256), r) := by
  induction xs with
  | nil => rfl
  | cons b tl ih => simp [readN, ih, Bind.bind, Except.bind]

theorem map_mod_id (xs : List Nat) (h : ∀ b ∈ xs, b < 256) :
    xs.map (fun b => b % 256) = xs := by
  induction xs with
  | nil => rfl
  | cons b tl ih =>
      simp only [List.map_cons]
      rw [Nat.mod_eq_of_lt (h b (by simp)), ih (fun x hx => h x (by simp [hx]))]

theorem leBytes_length (n v : Nat) : (leBytes n v).length = n := by
  induction n generalizing v with
  | zero => rfl
  | succ k ih => simp [leBytes, ih]

theorem leBytes_lt (n v : Nat) : ∀ b ∈ leBytes n v, b < 256 := by
  induction n generalizing v with
  | zero => simp [leBytes]
  | succ k ih =>
      intro b hb
      simp only [leBytes, List.mem_cons] at hb
      rcases hb with h | h
      · subst h; exact Nat.mod_lt _ (by norm_num)
      · exact ih _ b h

theorem leNat_leBytes (n v : Nat) : leNat (leBytes n v) = v % 256 ^ n := by
  induction n generalizing v with
  | zero => simp [leBytes, leNat, Nat.mod_one]
  | succ k ih =>
      simp only [leBytes, leNat, ih]
      rw [Nat.pow_succ,
        show (256:ℕ) ^ k * 256 = 256 * 256 ^ k from Nat.mul_comm _ _, Nat.mod_mul]

theorem readN_leBytes (n v : Nat) (r : List Nat) :
    readN n (leBytes n v ++ r) = .ok (leBytes n v, r) := by
  have h := readN_append (leBytes n v) r
  rw [leBytes_length] at h
  rw [h, map_mod_id _ (leBytes_lt n v)]

theorem readU16_leBytes (v : Nat) (r : List Nat) (h : v < 2 ^ 16) :
    readU16 (leBytes 2 v ++ r) = .ok (v, r) := by
  have h2 : v % 256 ^ 2 = v := by omega
  simp [readU16, readN_leBytes, leNat_leBytes, h2, Bind.bind, Except.bind]
  omega

theorem readU32_leBytes (v : Nat) (r : List Nat) (h : v < 2 ^ 32) :
    readU32 (leBytes 4 v ++ r) = .ok (v, r) := by
  have h2 : v % 256 ^ 4 = v := by omega
  simp [readU32, readN_leBytes, leNat_leBytes, h2, Bind.bind, Except.bind]
  omega

theorem readU64_leBytes (v : Nat) (r : List Nat) (h : v < 2 ^ 64) :
    readU64 (leBytes 8 v ++ r) = .ok (v, r) := by
  have h2 : v % 256 ^ 8 = v := by omega
  simp [readU64, readN_leBytes, leNat_leBytes, h2, Bind.bind, Except.bind]
  omega

theorem read_write_optimized_u32 (v : Nat) (r : List Nat) (h : v < 2 ^ 32) :
    read_optimized_u32 (write_optimized_u32 v ++ r) = .ok (v, r) := by
  unfold write_optimized_u32
  by_cases hv : v < 255
  · have h1 : v % 256 = v := Nat.mod_eq_of_lt (by omega)
    have h2 : (v == 255) = false := by simp; omega
    simp [hv, read_optimized_u32, readU8, h1, h2, Bind.bind, Except.bind]
  · simp only [if_neg hv]
    simp [read_optimized_u32, readU8, Bind.bind, Except.bind, readU32_leBytes v r h]

/-! ### Map machinery -/

/-- Structural induction principle for `EntryList` alone (the `induction`
tactic cannot use the mutual recursor directly). -/
theorem entInd {motive : EntryList → Prop} (nil : motive .nil)
    (cons : ∀ k v tl, motive tl → motive (.cons k v tl)) :
    ∀ es, motive es
  | .nil => nil
  | .cons k v tl => cons k v tl (entInd nil cons tl)

/-- Plain concatenation of entry sequences. -/
def entAppend : EntryList → EntryList → EntryList
  | .nil, ys => ys
  | .cons k v tl, ys => .cons k v (entAppend tl ys)

/-- The map obtained by inserting every entry of `es` (in order) into
`acc`: the net effect of the decode loop of the `IndexMap` codec. -/
def insertFold : EntryList → EntryList → EntryList
  | acc, .nil => acc
  | acc, .cons k v tl => insertFold (insertIM acc k v) tl

theorem entAppend_nil (m : EntryList) : entAppend m .nil = m := by
  induction m using entInd with
  | nil => rfl
  | cons k v tl ih => simp [entAppend, ih]

theorem entAppend_assoc (a b c : EntryList) :
    entAppend (entAppend a b) c = entAppend a (entAppend b c) := by
  induction a using entInd with
  | nil => rfl
  | cons k v tl ih => simp [entAppend, ih]

theorem insertIM_of_not_hasKey (m : EntryList) (k : List Nat) (v : Property)
    (h : hasKey m k = false) :
    insertIM m k v = entAppend m (.cons k v .nil) := by
  induction m using entInd with
  | nil => rfl
  | cons k0 v0 tl ih =>
      simp only [hasKey, Bool.or_eq_false_iff] at h
      simp only [insertIM, entAppend]
      rw [if_neg (by simpa using h.1), ih h.2]

theorem hasKey_entAppend (a b : EntryList) (k : List Nat) :
    hasKey (entAppend a b) k = (hasKey a k || hasKey b k) := by
  induction a using entInd with
  | nil => simp [entAppend, hasKey]
  | cons k0 v0 tl ih => by_cases h : k0 = k <;> simp [entAppend, hasKey, h, ih]

theorem hasKey_insertIM (m : EntryList) (k k' : List Nat) (v : Property) :
    hasKey (insertIM m k v) k' = (hasKey m k' || k = k') := by
  induction m using entInd with
  | nil => by_cases h : k = k' <;> simp [insertIM, hasKey, h]
  | cons k0 v0 tl ih =>
      by_cases h0 : k0 = k
      · subst h0
        by_cases h1 : k0 = k' <;> simp [insertIM, hasKey, h1]
      · by_cases h1 : k0 = k'
        · subst h1
          simp [insertIM, if_neg h0, hasKey]
        · simp [insertIM, if_neg h0, hasKey, h1, ih, Bool.or_assoc]

theorem entLen_insertIM (m : EntryList) (k : List Nat) (v : Property) :
    entLen (insertIM m k v) ≤ entLen m + 1 := by
  induction m using entInd with
  | nil => simp [insertIM, entLen]
  | cons k0 v0 tl ih =>
      by_cases h : k0 = k <;> simp [insertIM, entLen, h] <;> omega

theorem nodupKeys_insertIM (m : EntryList) (k : List Nat) (v : Property)
    (h : nodupKeys m = true) : nodupKeys (insertIM m k v) = true := by
  induction m using entInd with
  | nil => simp [insertIM, nodupKeys, hasKey]
  | cons k0 v0 tl ih =>
      simp only [nodupKeys, Bool.and_eq_true, Bool.not_eq_true'] at h
      by_cases hk : k0 = k
      · subst hk
        simp only [insertIM, if_pos rfl, nodupKeys, Bool.and_eq_true,
          Bool.not_eq_true']
        exact ⟨h.1, h.2⟩
      · simp only [insertIM, if_neg hk, nodupKeys, Bool.and_eq_true,
          Bool.not_eq_true']
        refine ⟨?_, ih h.2⟩
        rw [hasKey_insertIM, h.1]
        simp only [Bool.false_or, decide_eq_false_iff_not]
        exact fun h' => hk h'.symm

theorem insertFold_disjoint : ∀ (es acc : EntryList),
    nodupKeys es = true →
    (∀ k, hasKey es k = true → hasKey acc k = false) →
    insertFold acc es = entAppend acc es
  | .nil, acc, _, _ => by simp [insertFold, entAppend_nil]
  | .cons k v tl, acc, hnd, hdisj => by
      simp only [nodupKeys, Bool.and_eq_true, Bool.not_eq_true'] at hnd
      have hacc : hasKey acc k = false := hdisj k (by simp [hasKey])
      have hstep : ∀ k', hasKey tl k' = true →
          hasKey (entAppend acc (.cons k v .nil)) k' = false := by
        intro k' hk'
        rw [hasKey_entAppend]
        have h1 : hasKey acc k' = false := hdisj k' (by simp [hasKey, hk'])
        have h2 : ¬ k = k' := fun he => by
          subst he; rw [hnd.1] at hk'; exact Bool.false_ne_true hk'
        simp [h1, hasKey, h2]
      show insertFold (insertIM acc k v) tl = _
      rw [insertIM_of_not_hasKey _ _ _ hacc,
        insertFold_disjoint tl _ hnd.2 hstep, entAppend_assoc]
      rfl

theorem insertFold_nil_of_nodup (es : EntryList) (hnd : nodupKeys es = true) :
    insertFold .nil es = es :=
  insertFold_disjoint es .nil hnd (fun _ _ => rfl)

/-! ### Facts about decoded payloads -/

theorem readN_ok_facts : ∀ (n : Nat) (input bs r : List Nat),
    readN n input = .ok (bs, r) →
    bs.length = n ∧ ∀ b ∈ bs, b < 256
  | 0, input, bs, r, h => by
      simp only [readN, Except.ok.injEq, Prod.mk.injEq] at h
      simp [← h.1]
  | n + 1, [], bs, r, h => by simp [readN] at h
  | n + 1, b :: tl, bs, r, h => by
      simp only [readN, Bind.bind, Except.bind] at h
      cases hr : readN n tl with
      | error e => rw [hr] at h; simp at h
      | ok p =>
          rw [hr] at h
          obtain ⟨bs2, r2⟩ := p
          simp only [Except.ok.injEq, Prod.mk.injEq] at h
          obtain ⟨h1, h2⟩ := h
          obtain ⟨hl, hb⟩ := readN_ok_facts n tl bs2 r2 hr
          constructor
          · rw [← h1]; simp [hl]
          · intro x hx
            rw [← h1] at hx
            rcases List.mem_cons.mp hx with hx | hx
            · subst hx; exact Nat.mod_lt _ (by norm_num)
            · exact hb x hx

theorem leNat_lt (bs : List Nat) (h : ∀ b ∈ bs, b < 256) :
    leNat bs < 256 ^ bs.length := by
  induction bs with
  | nil => simp [leNat]
  | cons b tl ih =>
      have hb : b < 256 := h b (by simp)
      have ht := ih (fun x hx => h x (by simp [hx]))
      simp only [leNat, List.length_cons, Nat.pow_succ]
      calc b + 256 * leNat tl < 256 * (leNat tl + 1) := by omega
        _ ≤ 256 * 256 ^ tl.length := Nat.mul_le_mul_left 256 (Nat.succ_le_of_lt ht)
        _ = 256 ^ tl.length * 256 := Nat.mul_comm _ _

theorem readU32_ok_lt (input : List Nat) (v : Nat) (r : List Nat)
    (h : readU32 input = .ok (v, r)) : v < 2 ^ 32 := by
  simp only [readU32, Bind.bind, Except.bind] at h
  cases hr : readN 4 input with
  | error e => rw [hr] at h; simp at h
  | ok p =>
      rw [hr] at h
      obtain ⟨bs, r2⟩ := p
      simp only [Except.ok.injEq, Prod.mk.injEq] at h
      obtain ⟨hl, hb⟩ := readN_ok_facts 4 input bs r2 hr
      have := leNat_lt bs hb
      rw [hl] at this
      rw [← h.1]
      norm_num at this ⊢
      omega

theorem read_optimized_u32_ok_lt (input : List Nat) (v : Nat) (r : List Nat)
    (h : read_optimized_u32 input = .ok (v, r)) : v < 2 ^ 32 := by
  simp only [read_optimized_u32, Bind.bind, Except.bind] at h
  cases input with
  | nil => simp [readU8] at h
  | cons b tl =>
      simp only [readU8] at h
      by_cases hff : b % 256 == 0xff
      · rw [if_pos hff] at h
        exact readU32_ok_lt tl v r h
      · rw [if_neg hff] at h
        simp only [Except.ok.injEq, Prod.mk.injEq] at h
        have : b % 256 < 256 := Nat.mod_lt _ (by norm_num)
        rw [← h.1]
        norm_num
        omega

theorem decodeString_wf (input s r : List Nat)
    (h : decodeString input = .ok (s, r)) :
    (validUtf8 s && s.all (fun b => decide (b < 256)) &&
      decide (s.length < 2 ^ 32)) = true := by
  simp only [decodeString, Bind.bind, Except.bind] at h
  cases input with
  | nil => simp [readU8] at h
  | cons b tl =>
      simp only [readU8] at h
      by_cases hlb : loose_bool (b % 256)
      · simp only [hlb, Bool.not_true, Bool.false_eq_true, if_false,
          Except.ok.injEq, Prod.mk.injEq] at h
        rw [← h.1]
        decide
      · simp only [hlb, Bool.not_false, if_true] at h
        cases ho : read_optimized_u32 tl with
        | error e => rw [ho] at h; simp at h
        | ok p =>
            rw [ho] at h
            obtain ⟨len, r1⟩ := p
            simp only at h
            cases hn : readN len r1 with
            | error e => rw [hn] at h; simp at h
            | ok q =>
                rw [hn] at h
                obtain ⟨vec, r2⟩ := q
                simp only at h
                by_cases hv : validUtf8 vec
                · rw [if_pos hv] at h
                  simp only [Except.ok.injEq, Prod.mk.injEq] at h
                  obtain ⟨hl, hb⟩ := readN_ok_facts len r1 vec r2 hn
                  have hlen := read_optimized_u32_ok_lt tl len r1 ho
                  rw [← h.1]
                  simp only [Bool.and_eq_true, decide_eq_true_eq]
                  refine ⟨⟨hv, ?_⟩, by omega⟩
                  simp only [List.all_eq_true, decide_eq_true_eq]
                  exact hb
                · rw [if_neg hv] at h; simp at h

/-! ### String encode/decode roundtrip -/

theorem decodeString_encodeString (k x : List Nat)
    (hval : validUtf8 k = true) (hlt : ∀ b ∈ k, b < 256)
    (hlen : k.length < 2 ^ 32) :
    decodeString (encodeString k ++ x) = .ok (k, x) := by
  have hm : k.length % 4294967296 = k.length := Nat.mod_eq_of_lt (by omega)
  have hw := read_write_optimized_u32 k.length (k ++ x) hlen
  have hr := readN_append k x
  rw [map_mod_id k hlt] at hr
  simp only [encodeString, hm, List.cons_append, List.append_assoc]
  simp [decodeString, readU8, loose_bool, Bind.bind, Except.bind, hw, hr, hval]

/-! ### Encode totality and output shape -/

theorem encodeProperty_ok_len : ∀ (t : Property) (bs : List Nat),
    encodeProperty t = .ok bs → 2 ≤ bs.length
  | .mk f .none, bs, h => by
      simp only [encodeProperty, Except.ok.injEq] at h
      rw [← h]; simp
  | .mk f (.bool b), bs, h => by
      simp only [encodeProperty, Except.ok.injEq] at h
      rw [← h]; simp
  | .mk f (.double bits), bs, h => by
      simp only [encodeProperty, Except.ok.injEq] at h
      rw [← h]; simp
  | .mk f (.string str), bs, h => by
      simp only [encodeProperty, Except.ok.injEq] at h
      rw [← h]; simp
  | .mk f (.list l), bs, h => by simp [encodeProperty] at h
  | .mk f (.dictionary d), bs, h => by
      simp only [encodeProperty, Bind.bind, Except.bind] at h
      cases he : encodeEntries d with
      | error e => rw [he] at h; simp at h
      | ok body =>
          rw [he] at h
          simp only [Except.ok.injEq] at h
          rw [← h]; simp
  | .mk f (.integer bits), bs, h => by
      simp only [encodeProperty, Except.ok.injEq] at h
      rw [← h]; simp

mutual
theorem encodeProperty_total : ∀ (t : Property), listFreeP t = true →
    ∃ bs, encodeProperty t = .ok bs
  | .mk f .none, _ => ⟨_, rfl⟩
  | .mk f (.bool b), _ => ⟨_, rfl⟩
  | .mk f (.double bits), _ => ⟨_, rfl⟩
  | .mk f (.string str), _ => ⟨_, rfl⟩
  | .mk f (.list l), h => by simp [listFreeP, listFreeV] at h
  | .mk f (.dictionary d), h => by
      obtain ⟨body, hb⟩ :=
        encodeEntries_total d (by simpa [listFreeP, listFreeV] using h)
      exact ⟨5 :: loose_bool_byte f :: (leBytes 4 (entLen d) ++ body),
        by simp [encodeProperty, hb, Bind.bind, Except.bind]⟩
  | .mk f (.integer bits), _ => ⟨_, rfl⟩

theorem encodeEntries_total : ∀ (es : EntryList), listFreeE es = true →
    ∃ bs, encodeEntries es = .ok bs
  | .nil, _ => ⟨_, rfl⟩
  | .cons k v tl, h => by
      have h' : listFreeP v = true ∧ listFreeE tl = true := by
        simpa [listFreeE, Bool.and_eq_true] using h
      obtain ⟨bv, hv⟩ := encodeProperty_total v h'.1
      obtain ⟨bt, ht⟩ := encodeEntries_total tl h'.2
      exact ⟨encodeString k ++ bv ++ bt,
        by simp [encodeEntries, hv, ht, Bind.bind, Except.bind]⟩
end

mutual
theorem wfP_listFree : ∀ t, wfP t = true → listFreeP t = true
  | .mk f .none, _ => rfl
  | .mk f (.bool b), _ => rfl
  | .mk f (.double bits), _ => rfl
  | .mk f (.string str), _ => rfl
  | .mk f (.list l), h => by simp [wfP, wfV] at h
  | .mk f (.dictionary d), h => by
      simp only [wfP, wfV, Bool.and_eq_true] at h
      simp only [listFreeP, listFreeV]
      exact wfE_listFree d h.2
  | .mk f (.integer bits), _ => rfl

theorem wfE_listFree : ∀ es, wfE es = true → listFreeE es = true
  | .nil, _ => rfl
  | .cons k v tl, h => by
      simp only [wfE, Bool.and_eq_true] at h
      simp only [listFreeE, Bool.and_eq_true]
      exact ⟨wfP_listFree v h.1.2, wfE_listFree tl h.2⟩
end

/-! ### C4: encode never fails except for the List gap -/

/-- C4 (corrected): for every Settings tree that contains no `List`
variant, `Settings::encode` succeeds outright (with a pure in-memory
writer there are no I/O errors).  The unrestricted claim is false: a tree
containing a `List` reaches the `todo!()` panic of the unimplemented
`Vec<Property>` encoder (see the counterexample). -/
theorem encode_ok_of_list_free (s : Settings) (h : listFreeSettings s = true) :
    ∃ bs, encodeSettings s = .ok bs := by
  obtain ⟨props, hp⟩ := encodeProperty_total s.properties h
  exact ⟨encodeFactorioVersion s.version ++ 0 :: props,
    by simp [encodeSettings, hp, Bind.bind, Except.bind]⟩

theorem encode_ok_of_list_free_witness :
    ∃ bs, encodeSettings ⟨⟨1, 1, 82, 4⟩, .mk false .none⟩ = .ok bs :=
  encode_ok_of_list_free ⟨⟨1, 1, 82, 4⟩, .mk false .none⟩ rfl

/-! ### Decoded trees are well-formed -/

theorem readU16_ok_lt (input : List Nat) (v : Nat) (r : List Nat)
    (h : readU16 input = .ok (v, r)) : v < 2 ^ 16 := by
  simp only [readU16, Bind.bind, Except.bind] at h
  cases hr : readN 2 input with
  | error e => rw [hr] at h; simp at h
  | ok p =>
      rw [hr] at h
      obtain ⟨bs, r2⟩ := p
      simp only [Except.ok.injEq, Prod.mk.injEq] at h
      obtain ⟨hl, hb⟩ := readN_ok_facts 2 input bs r2 hr
      have := leNat_lt bs hb
      rw [hl] at this
      rw [← h.1]
      norm_num at this ⊢
      omega

theorem readU64_ok_lt (input : List Nat) (v : Nat) (r : List Nat)
    (h : readU64 input = .ok (v, r)) : v < 2 ^ 64 := by
  simp only [readU64, Bind.bind, Except.bind] at h
  cases hr : readN 8 input with
  | error e => rw [hr] at h; simp at h
  | ok p =>
      rw [hr] at h
      obtain ⟨bs, r2⟩ := p
      simp only [Except.ok.injEq, Prod.mk.injEq] at h
      obtain ⟨hl, hb⟩ := readN_ok_facts 8 input bs r2 hr
      have := leNat_lt bs hb
      rw [hl] at this
      rw [← h.1]
      norm_num at this ⊢
      omega

theorem wfE_insertIM (m : EntryList) (k : List Nat) (v : Property)
    (hm : wfE m = true)
    (hk : (validUtf8 k && k.all (· < 256) && decide (k.length < 2 ^ 32)) = true)
    (hv : wfP v = true) : wfE (insertIM m k v) = true := by
  induction m using entInd with
  | nil =>
      simp only [insertIM, wfE, Bool.and_eq_true]
      refine ⟨⟨?_, hv⟩, trivial⟩
      simpa [Bool.and_eq_true] using hk
  | cons k0 v0 tl ih =>
      simp only [wfE, Bool.and_eq_true] at hm
      by_cases h : k0 = k
      · simp only [insertIM, if_pos h, wfE, Bool.and_eq_true]
        exact ⟨⟨hm.1.1, hv⟩, hm.2⟩
      · simp only [insertIM, if_neg h, wfE, Bool.and_eq_true]
        exact ⟨hm.1, ih hm.2⟩

theorem decodeDictLoop_wf
    (dec : List Nat → Except DErr (Property × List Nat))
    (Hdec : ∀ i t r, dec i = .ok (t, r) → wfP t = true) :
    ∀ (n : Nat) (acc : EntryList) (input : List Nat) (d : EntryList)
      (rest : List Nat),
    decodeDictLoop dec n acc input = .ok (d, rest) →
    ((nodupKeys acc = true ∧ wfE acc = true) →
      (nodupKeys d = true ∧ wfE d = true)) ∧
    entLen d ≤ entLen acc + n
  | 0, acc, input, d, rest, h => by
      simp only [decodeDictLoop, Except.ok.injEq, Prod.mk.injEq] at h
      obtain ⟨h1, h2⟩ := h
      subst h1
      exact ⟨fun hh => hh, by omega⟩
  | n + 1, acc, input, d, rest, h => by
      simp only [decodeDictLoop, Bind.bind, Except.bind] at h
      cases hs : decodeString input with
      | error e => rw [hs] at h; simp at h
      | ok p =>
          rw [hs] at h
          obtain ⟨k, r1⟩ := p
          simp only at h
          cases hv : dec r1 with
          | error e => rw [hv] at h; simp at h
          | ok q =>
              rw [hv] at h
              obtain ⟨v, r2⟩ := q
              simp only at h
              have IH := decodeDictLoop_wf dec Hdec n (insertIM acc k v) r2 d rest h
              refine ⟨fun hh => IH.1 ⟨nodupKeys_insertIM _ _ _ hh.1,
                wfE_insertIM _ _ _ hh.2 (decodeString_wf _ _ _ hs)
                  (Hdec _ _ _ hv)⟩, ?_⟩
              have h2 := IH.2
              have h3 := entLen_insertIM acc k v
              omega

theorem decodeProperty_wf : ∀ (fuel : Nat) (input : List Nat) (t : Property)
    (rest : List Nat),
    decodeProperty fuel input = .ok (t, rest) → wfP t = true
  | 0, input, t, rest, h => by simp [decodeProperty] at h
  | fuel + 1, input, t, rest, h => by
      cases input with
      | nil => simp [decodeProperty, readU8, Bind.bind, Except.bind] at h
      | cons b tl =>
      cases tl with
      | nil => simp [decodeProperty, readU8, Bind.bind, Except.bind] at h
      | cons c tl2 =>
      simp only [decodeProperty, readU8, Bind.bind, Except.bind] at h
      generalize hbv : b % 256 = v at h
      have hvlt : v < 256 := by rw [← hbv]; exact Nat.mod_lt _ (by norm_num)
      rcases Nat.lt_or_ge v 7 with h7 | h7
      · interval_cases v
        · simp only [Except.ok.injEq, Prod.mk.injEq] at h
          rw [← h.1]; rfl
        · simp only at h
          cases hb2 : decodeBool tl2 with
          | error e => rw [hb2] at h; simp at h
          | ok p =>
              rw [hb2] at h
              simp only [Except.ok.injEq, Prod.mk.injEq] at h
              rw [← h.1]; rfl
        · simp only at h
          cases hb2 : readU64 tl2 with
          | error e => rw [hb2] at h; simp at h
          | ok p =>
              rw [hb2] at h
              obtain ⟨bits, r2⟩ := p
              simp only [Except.ok.injEq, Prod.mk.injEq] at h
              rw [← h.1]
              simpa [wfP, wfV] using readU64_ok_lt tl2 bits r2 hb2
        · simp only at h
          cases hb2 : decodeString tl2 with
          | error e => rw [hb2] at h; simp at h
          | ok p =>
              rw [hb2] at h
              obtain ⟨str, r2⟩ := p
              simp only [Except.ok.injEq, Prod.mk.injEq] at h
              rw [← h.1]
              simpa [wfP, wfV] using decodeString_wf tl2 str r2 hb2
        · simp at h
        · simp only at h
          cases hb2 : readU32 tl2 with
          | error e => rw [hb2] at h; simp at h
          | ok p =>
              rw [hb2] at h
              obtain ⟨count, r1⟩ := p
              simp only at h
              cases hb3 : decodeDictLoop (decodeProperty fuel) count .nil r1 with
              | error e => rw [hb3] at h; simp at h
              | ok q =>
                  rw [hb3] at h
                  obtain ⟨d, r2⟩ := q
                  simp only [Except.ok.injEq, Prod.mk.injEq] at h
                  rw [← h.1]
                  have hcount := readU32_ok_lt tl2 count r1 hb2
                  have hloop := decodeDictLoop_wf (decodeProperty fuel)
                    (fun i t' r' h' => decodeProperty_wf fuel i t' r' h')
                    count .nil r1 d r2 hb3
                  have hd := hloop.1 ⟨rfl, rfl⟩
                  have hlen := hloop.2
                  simp only [wfP, wfV, Bool.and_eq_true, decide_eq_true_eq]
                  refine ⟨⟨?_, hd.1⟩, hd.2⟩
                  simp only [entLen] at hlen
                  omega
        · simp only at h
          cases hb2 : readU64 tl2 with
          | error e => rw [hb2] at h; simp at h
          | ok p =>
              rw [hb2] at h
              obtain ⟨bits, r2⟩ := p
              simp only [Except.ok.injEq, Prod.mk.injEq] at h
              rw [← h.1]
              simpa [wfP, wfV] using readU64_ok_lt tl2 bits r2 hb2
      · obtain ⟨k, rfl⟩ : ∃ k, v = k + 7 := ⟨v - 7, by omega⟩
        simp at h

/-! ### Encode/decode roundtrip -/

theorem lbb_mod (f : Bool) : loose_bool_byte f % 256 = loose_bool_byte f := by
  cases f <;> rfl

theorem loose_bool_byte_rt (f : Bool) : loose_bool (loose_bool_byte f) = f := by
  cases f <;> rfl

theorem wfE_cons_parts (k : List Nat) (v : Property) (tl : EntryList)
    (h : wfE (.cons k v tl) = true) :
    validUtf8 k = true ∧ (∀ b ∈ k, b < 256) ∧ k.length < 2 ^ 32 ∧
      wfP v = true ∧ wfE tl = true := by
  simp only [wfE, Bool.and_eq_true, List.all_eq_true, decide_eq_true_eq] at h
  exact ⟨h.1.1.1.1, h.1.1.1.2, h.1.1.2, h.1.2, h.2⟩

theorem decodeDictLoop_rt (fuel : Nat)
    (IH : ∀ t bs r, wfP t = true → encodeProperty t = .ok bs →
      bs.length ≤ fuel → decodeProperty fuel (bs ++ r) = .ok (t, r)) :
    ∀ (es acc : EntryList) (body r : List Nat),
    wfE es = true → encodeEntries es = .ok body → body.length ≤ fuel →
    decodeDictLoop (decodeProperty fuel) (entLen es) acc (body ++ r) =
      .ok (insertFold acc es, r)
  | .nil, acc, body, r, _, he, _ => by
      simp only [encodeEntries, Except.ok.injEq] at he
      rw [← he]
      simp [decodeDictLoop, insertFold, entLen]
  | .cons k v tl, acc, body, r, hwf, he, hlen => by
      obtain ⟨hkval, hkall, hklen, hv, htl⟩ := wfE_cons_parts k v tl hwf
      simp only [encodeEntries, Bind.bind, Except.bind] at he
      cases hev : encodeProperty v with
      | error e => rw [hev] at he; simp at he
      | ok bv =>
          rw [hev] at he
          cases het : encodeEntries tl with
          | error e => rw [het] at he; simp at he
          | ok bt =>
              rw [het] at he
              simp only [Except.ok.injEq] at he
              subst he
              have hbv : bv.length ≤ fuel := by
                simp only [List.length_append] at hlen; omega
              have hbt : bt.length ≤ fuel := by
                simp only [List.length_append] at hlen; omega
              show decodeDictLoop (decodeProperty fuel) (entLen tl + 1) acc
                (encodeString k ++ bv ++ bt ++ r) = _
              simp only [decodeDictLoop, Bind.bind, Except.bind,
                List.append_assoc]
              rw [decodeString_encodeString k (bv ++ (bt ++ r)) hkval hkall hklen]
              simp only
              rw [IH v bv (bt ++ r) hv hev hbv]
              simp only
              rw [decodeDictLoop_rt fuel IH tl (insertIM acc k v) bt r htl het hbt]
              rfl

theorem decodeProperty_encodeProperty : ∀ (fuel : Nat) (t : Property)
    (bs r : List Nat),
    wfP t = true → encodeProperty t = .ok bs → bs.length ≤ fuel →
    decodeProperty fuel (bs ++ r) = .ok (t, r)
  | 0, t, bs, r, _, he, hlen => by
      have := encodeProperty_ok_len t bs he
      omega
  | fuel + 1, .mk f .none, bs, r, _, he, _ => by
      simp only [encodeProperty, Except.ok.injEq] at he
      subst he
      cases f <;> rfl
  | fuel + 1, .mk f (.bool b), bs, r, _, he, _ => by
      simp only [encodeProperty, Except.ok.injEq] at he
      subst he
      cases f <;> cases b <;> rfl
  | fuel + 1, .mk f (.double bits), bs, r, hwf, he, _ => by
      simp only [encodeProperty, Except.ok.injEq] at he
      subst he
      have hb : bits < 2 ^ 64 := by
        simpa [wfP, wfV] using hwf
      simp [decodeProperty, readU8, Bind.bind, Except.bind, lbb_mod,
        loose_bool_byte_rt, readU64_leBytes bits r hb]
  | fuel + 1, .mk f (.string str), bs, r, hwf, he, _ => by
      simp only [encodeProperty, Except.ok.injEq] at he
      subst he
      have hparts : (validUtf8 str = true ∧ ∀ x ∈ str, x < 256) ∧
          str.length < 4294967296 := by
        simpa [wfP, wfV, Bool.and_eq_true, List.all_eq_true] using hwf
      have hl32 : str.length < 2 ^ 32 := by omega
      simp [decodeProperty, readU8, Bind.bind, Except.bind, lbb_mod,
        loose_bool_byte_rt,
        decodeString_encodeString str r hparts.1.1 hparts.1.2 hl32]
  | fuel + 1, .mk f (.list l), bs, r, hwf, he, _ => by
      simp [wfP, wfV] at hwf
  | fuel + 1, .mk f (.dictionary d), bs, r, hwf, he, hlen => by
      have hw : (entLen d < 4294967296 ∧ nodupKeys d = true) ∧ wfE d = true := by
        simpa [wfP, wfV, Bool.and_eq_true] using hwf
      have hw32 : entLen d < 2 ^ 32 := by omega
      simp only [encodeProperty, Bind.bind, Except.bind] at he
      cases hed : encodeEntries d with
      | error e => rw [hed] at he; simp at he
      | ok body =>
          rw [hed] at he
          simp only [Except.ok.injEq] at he
          subst he
          have hbody : body.length ≤ fuel := by
            simp only [List.length_cons, List.length_append,
              leBytes_length] at hlen
            omega
          show decodeProperty (fuel + 1)
            (5 :: loose_bool_byte f :: (leBytes 4 (entLen d) ++ body) ++ r) = _
          simp only [decodeProperty, readU8, Bind.bind, Except.bind,
            List.cons_append, List.append_assoc, lbb_mod]
          simp only [readU32_leBytes (entLen d) (body ++ r) hw32,
            decodeDictLoop_rt fuel
              (fun t' bs' r' h1 h2 h3 =>
                decodeProperty_encodeProperty fuel t' bs' r' h1 h2 h3)
              d .nil body r hw.2 hed hbody,
            insertFold_nil_of_nodup d hw.1.2, loose_bool_byte_rt]
  | fuel + 1, .mk f (.integer bits), bs, r, hwf, he, _ => by
      simp only [encodeProperty, Except.ok.injEq] at he
      subst he
      have hb : bits < 2 ^ 64 := by
        simpa [wfP, wfV] using hwf
      simp [decodeProperty, readU8, Bind.bind, Except.bind, lbb_mod,
        loose_bool_byte_rt, readU64_leBytes bits r hb]

/-! ### Settings-level roundtrip (C1) -/

theorem decodeFactorioVersion_wf (input : List Nat) (v : FactorioVersion)
    (r : List Nat) (h : decodeFactorioVersion input = .ok (v, r)) :
    wfVersion v = true := by
  simp only [decodeFactorioVersion, Bind.bind, Except.bind] at h
  cases h1 : readU16 input with
  | error e => rw [h1] at h; simp at h
  | ok p1 =>
      rw [h1] at h
      obtain ⟨major, r1⟩ := p1
      simp only at h
      cases h2 : readU16 r1 with
      | error e => rw [h2] at h; simp at h
      | ok p2 =>
          rw [h2] at h
          obtain ⟨minor, r2⟩ := p2
          simp only at h
          cases h3 : readU16 r2 with
          | error e => rw [h3] at h; simp at h
          | ok p3 =>
              rw [h3] at h
              obtain ⟨patch, r3⟩ := p3
              simp only at h
              cases h4 : readU16 r3 with
              | error e => rw [h4] at h; simp at h
              | ok p4 =>
                  rw [h4] at h
                  obtain ⟨build, r4⟩ := p4
                  simp only [Except.ok.injEq, Prod.mk.injEq] at h
                  rw [← h.1]
                  simp only [wfVersion, Bool.and_eq_true, decide_eq_true_eq]
                  exact ⟨⟨⟨readU16_ok_lt _ _ _ h1, readU16_ok_lt _ _ _ h2⟩,
                    readU16_ok_lt _ _ _ h3⟩, readU16_ok_lt _ _ _ h4⟩

theorem decodeFactorioVersion_encode (v : FactorioVersion) (r : List Nat)
    (h : wfVersion v = true) :
    decodeFactorioVersion (encodeFactorioVersion v ++ r) = .ok (v, r) := by
  simp only [wfVersion, Bool.and_eq_true, decide_eq_true_eq] at h
  obtain ⟨⟨⟨h1, h2⟩, h3⟩, h4⟩ := h
  simp only [encodeFactorioVersion, List.append_assoc]
  simp [decodeFactorioVersion, Bind.bind, Except.bind,
    readU16_leBytes v.major _ h1, readU16_leBytes v.minor _ h2,
    readU16_leBytes v.patch _ h3, readU16_leBytes v.build _ h4]

theorem encodeFactorioVersion_length (v : FactorioVersion) :
    (encodeFactorioVersion v).length = 8 := by
  simp [encodeFactorioVersion, leBytes_length]

/-- C1 (corrected): if `Settings::decode` consumes a prefix of `input`
successfully, producing the tree `t` and leaving `rest`, then re-encoding
`t` succeeds and the re-encoded bytes decode back to exactly the same tree
and the same remainder.  Byte-for-byte identity with the consumed prefix —
the claim as stated — is false (see the counterexample): the decoder is
deliberately loose (loose-boolean bytes, the string is-empty sentinel, the
optimized length prefix), so distinct inputs can decode to the same tree,
and the encoder re-emits only the canonical spelling. -/
theorem decode_then_reencode_decodes_back (input : List Nat) (t : Settings)
    (rest : List Nat) (h : decodeSettings input = .ok (t, rest)) :
    ∃ bs, encodeSettings t = .ok bs ∧
      decodeSettings (bs ++ rest) = .ok (t, rest) := by
  simp only [decodeSettings, Bind.bind, Except.bind] at h
  cases hv : decodeFactorioVersion input with
  | error e => rw [hv] at h; simp at h
  | ok p =>
      rw [hv] at h
      obtain ⟨ver, r0⟩ := p
      simp only at h
      cases hb : readU8 r0 with
      | error e => rw [hb] at h; simp at h
      | ok q =>
          rw [hb] at h
          obtain ⟨byte, r1⟩ := q
          simp only at h
          by_cases h0 : byte ≠ 0
          · rw [if_pos h0] at h; simp at h
          · rw [if_neg h0] at h
            cases hp : decodeProperty input.length r1 with
            | error e => rw [hp] at h; simp at h
            | ok pq =>
                rw [hp] at h
                obtain ⟨prop, r2⟩ := pq
                simp only [Except.ok.injEq, Prod.mk.injEq] at h
                obtain ⟨ht, hrest⟩ := h
                subst ht
                subst hrest
                have hwfv := decodeFactorioVersion_wf input ver r0 hv
                have hwfp := decodeProperty_wf _ _ _ _ hp
                obtain ⟨props, hprops⟩ :=
                  encodeProperty_total prop (wfP_listFree prop hwfp)
                refine ⟨encodeFactorioVersion ver ++ 0 :: props, ?_, ?_⟩
                · simp [encodeSettings, hprops, Bind.bind, Except.bind]
                · have hple : props.length ≤
                      ((encodeFactorioVersion ver ++ 0 :: props) ++ r2).length := by
                    simp [List.length_append]
                    omega
                  simp only [decodeSettings, Bind.bind, Except.bind,
                    List.append_assoc, List.cons_append]
                  rw [show encodeFactorioVersion ver ++ (0 :: (props ++ r2)) =
                    encodeFactorioVersion ver ++ (0 :: props ++ r2) by simp]
                  rw [show (0 : Nat) :: props ++ r2 = 0 :: (props ++ r2) by simp]
                  rw [decodeFactorioVersion_encode ver _ hwfv]
                  simp only [readU8]
                  rw [decodeProperty_encodeProperty _ prop props r2 hwfp hprops
                    (by simpa using hple)]
                  simp

theorem decode_then_reencode_decodes_back_witness :
    ∃ bs, encodeSettings ⟨⟨1, 1, 82, 4⟩, .mk false .none⟩ = .ok bs ∧
      decodeSettings (bs ++ []) =
        .ok (⟨⟨1, 1, 82, 4⟩, .mk false .none⟩, []) :=
  decode_then_reencode_decodes_back [1, 0, 1, 0, 82, 0, 4, 0, 0, 0, 2]
    ⟨⟨1, 1, 82, 4⟩, .mk false .none⟩ [] rfl

/-! ### C10: duplicate keys in a Dictionary payload -/

/-- `impl Codec for IndexMap<String, Property>`, decode side: a `u32`
entry count and then that many (key, value) pairs inserted in order. -/
def decodeIndexMap (fuel : Nat) (input : List Nat) :
    Except DErr (EntryList × List Nat) := do
  let (count, r) ← readU32 input
  decodeDictLoop (decodeProperty fuel) count .nil r

/-- Number of entries of the map carrying the given key. -/
def keyCount (k : List Nat) : EntryList → Nat
  | .nil => 0
  | .cons k0 _ tl => (if k0 = k then 1 else 0) + keyCount k tl

/-- Value of the last entry with the given key (`none` if absent). -/
def lastVal : EntryList → List Nat → Option Property
  | .nil, _ => none
  | .cons k0 v0 tl, k =>
      match lastVal tl k with
      | some w => some w
      | none => if k0 = k then some v0 else none

/-- First-occurrence deduplication of a key list, given keys already seen. -/
def dedupSeen (seen : List (List Nat)) : List (List Nat) → List (List Nat)
  | [] => []
  | k :: tl =>
      if k ∈ seen then dedupSeen seen tl else k :: dedupSeen (k :: seen) tl

/-- First-occurrence deduplication of a key list. -/
def dedupFirst (l : List (List Nat)) : List (List Nat) := dedupSeen [] l

theorem keysOf_insertIM (m : EntryList) (k : List Nat) (v : Property) :
    keysOf (insertIM m k v) =
      if hasKey m k then keysOf m else keysOf m ++ [k] := by
  induction m using entInd with
  | nil => simp [insertIM, keysOf, hasKey]
  | cons k0 v0 tl ih =>
      by_cases h : k0 = k
      · simp [insertIM, if_pos h, keysOf, hasKey, h]
      · simp only [insertIM, if_neg h, keysOf, hasKey, ih]
        by_cases h2 : hasKey tl k <;> simp [h2, h]

theorem hasKey_iff_mem (m : EntryList) (k : List Nat) :
    hasKey m k = true ↔ k ∈ keysOf m := by
  induction m using entInd with
  | nil => simp [hasKey, keysOf]
  | cons k0 v0 tl ih =>
      by_cases h : k0 = k
      · simp [hasKey, keysOf, h, ih]
      · simp [hasKey, keysOf, h, ih, Ne.symm h]

theorem lookupIM_insertIM (m : EntryList) (k k' : List Nat) (v : Property) :
    lookupIM (insertIM m k v) k' =
      if k = k' then some v else lookupIM m k' := by
  induction m using entInd with
  | nil => by_cases h : k = k' <;> simp [insertIM, lookupIM, h]
  | cons k0 v0 tl ih =>
      by_cases h0 : k0 = k
      · subst h0
        by_cases h1 : k0 = k' <;> simp [insertIM, lookupIM, h1]
      · by_cases h1 : k0 = k'
        · subst h1
          simp [insertIM, if_neg h0, lookupIM, Ne.symm h0]
        · simp [insertIM, if_neg h0, lookupIM, h1, ih]

theorem lookup_insertFold : ∀ (es acc : EntryList) (k : List Nat),
    lookupIM (insertFold acc es) k =
      (match lastVal es k with
       | some w => some w
       | none => lookupIM acc k)
  | .nil, acc, k => by simp [insertFold, lastVal]
  | .cons k0 v0 tl, acc, k => by
      show lookupIM (insertFold (insertIM acc k0 v0) tl) k = _
      rw [lookup_insertFold tl (insertIM acc k0 v0) k]
      simp only [lastVal]
      cases lastVal tl k with
      | some w => rfl
      | none =>
          simp only [lookupIM_insertIM]
          by_cases h : k0 = k <;> simp [h]

theorem insertFold_nodup : ∀ (es acc : EntryList),
    nodupKeys acc = true → nodupKeys (insertFold acc es) = true
  | .nil, acc, h => h
  | .cons k v tl, acc, h =>
      insertFold_nodup tl (insertIM acc k v) (nodupKeys_insertIM acc k v h)

theorem hasKey_insertFold : ∀ (es acc : EntryList) (k : List Nat),
    hasKey (insertFold acc es) k = (hasKey acc k || hasKey es k)
  | .nil, acc, k => by simp [insertFold, hasKey]
  | .cons k0 v0 tl, acc, k => by
      show hasKey (insertFold (insertIM acc k0 v0) tl) k = _
      rw [hasKey_insertFold tl (insertIM acc k0 v0) k, hasKey_insertIM]
      by_cases h : k0 = k <;> simp [hasKey, h, Bool.or_comm, Bool.or_assoc]

theorem keyCount_nodup (m : EntryList) (k : List Nat)
    (h : nodupKeys m = true) :
    keyCount k m = if hasKey m k then 1 else 0 := by
  induction m using entInd with
  | nil => simp [keyCount, hasKey]
  | cons k0 v0 tl ih =>
      simp only [nodupKeys, Bool.and_eq_true, Bool.not_eq_true'] at h
      by_cases hk : k0 = k
      · subst hk
        simp [keyCount, hasKey, ih h.2, h.1]
      · simp [keyCount, hasKey, hk, ih h.2]

theorem keyCount_pos_hasKey (m : EntryList) (k : List Nat)
    (h : 1 ≤ keyCount k m) : hasKey m k = true := by
  induction m using entInd with
  | nil => simp [keyCount] at h
  | cons k0 v0 tl ih =>
      by_cases hk : k0 = k
      · simp [hasKey, hk]
      · simp only [keyCount, if_neg hk] at h
        simp [hasKey, hk, ih (by omega)]

theorem entLen_eq_keysOf_length (m : EntryList) :
    entLen m = (keysOf m).length := by
  induction m using entInd with
  | nil => rfl
  | cons k v tl ih => simp [entLen, keysOf, ih]

theorem keyCount_eq_count (m : EntryList) (k : List Nat) :
    keyCount k m = (keysOf m).count k := by
  induction m using entInd with
  | nil => rfl
  | cons k0 v0 tl ih =>
      by_cases h : k0 = k
      · simp [keyCount, keysOf, h, ih, List.count_cons]
        omega
      · simp [keyCount, keysOf, h, ih, List.count_cons, Ne.symm h]

theorem dedupSeen_congr : ∀ (l s1 s2 : List (List Nat)),
    (∀ x, x ∈ s1 ↔ x ∈ s2) → dedupSeen s1 l = dedupSeen s2 l
  | [], _, _, _ => rfl
  | k :: tl, s1, s2, h => by
      by_cases hk : k ∈ s1
      · simp only [dedupSeen, if_pos hk, if_pos ((h k).mp hk)]
        exact dedupSeen_congr tl s1 s2 h
      · simp only [dedupSeen, if_neg hk, if_neg (fun hm => hk ((h k).mpr hm))]
        rw [dedupSeen_congr tl (k :: s1) (k :: s2)
          (fun x => by simp [h x])]

theorem dedupSeen_length_le : ∀ (l seen : List (List Nat)),
    (dedupSeen seen l).length ≤ l.length
  | [], _ => Nat.le_refl _
  | k :: tl, seen => by
      by_cases hk : k ∈ seen
      · simp only [dedupSeen, if_pos hk, List.length_cons]
        exact Nat.le_succ_of_le (dedupSeen_length_le tl seen)
      · simp only [dedupSeen, if_neg hk, List.length_cons]
        exact Nat.succ_le_succ (dedupSeen_length_le tl (k :: seen))

theorem dedupSeen_length_lt_of_mem : ∀ (l seen : List (List Nat))
    (k : List Nat), k ∈ seen → k ∈ l →
    (dedupSeen seen l).length < l.length
  | [], _, _, _, hl => by simp at hl
  | x :: tl, seen, k, hs, hl => by
      by_cases hx : x ∈ seen
      · simp only [dedupSeen, if_pos hx, List.length_cons]
        exact Nat.lt_succ_of_le (dedupSeen_length_le tl seen)
      · rcases List.mem_cons.mp hl with he | he
        · subst he; exact absurd hs hx
        · simp only [dedupSeen, if_neg hx, List.length_cons]
          exact Nat.succ_lt_succ
            (dedupSeen_length_lt_of_mem tl (x :: seen) k
              (List.mem_cons_of_mem _ hs) he)

theorem dedupSeen_length_lt : ∀ (l seen : List (List Nat)) (k : List Nat),
    2 ≤ l.count k → (dedupSeen seen l).length < l.length
  | [], _, k, h => by simp at h
  | x :: tl, seen, k, h => by
      by_cases hx : x ∈ seen
      · simp only [dedupSeen, if_pos hx, List.length_cons]
        exact Nat.lt_succ_of_le (dedupSeen_length_le tl seen)
      · simp only [dedupSeen, if_neg hx, List.length_cons]
        apply Nat.succ_lt_succ
        by_cases he : x = k
        · subst he
          have h0 : 2 ≤ tl.count x + 1 := by
            simpa [List.count_cons] using h
          have h1 : 0 < tl.count x := by omega
          exact dedupSeen_length_lt_of_mem tl (x :: seen) x (by simp)
            (List.count_pos_iff.mp h1)
        · have h1 : 2 ≤ tl.count k := by
            rw [List.count_cons] at h
            simpa [he] using h
          exact dedupSeen_length_lt tl (x :: seen) k h1

theorem keysOf_insertFold : ∀ (es acc : EntryList),
    keysOf (insertFold acc es) =
      keysOf acc ++ dedupSeen (keysOf acc) (keysOf es)
  | .nil, acc => by simp [insertFold, keysOf, dedupSeen]
  | .cons k v tl, acc => by
      show keysOf (insertFold (insertIM acc k v) tl) = _
      rw [keysOf_insertFold tl (insertIM acc k v), keysOf_insertIM]
      simp only [keysOf, dedupSeen]
      by_cases h : hasKey acc k
      · rw [if_pos h, if_pos ((hasKey_iff_mem acc k).mp h)]
      · rw [if_neg h,
          if_neg (fun hm => h ((hasKey_iff_mem acc k).mpr hm))]
        rw [dedupSeen_congr (keysOf tl) (keysOf acc ++ [k]) (k :: keysOf acc)
          (fun x => by simp [or_comm])]
        simp

/-- C10: when a Dictionary payload on the wire (count prefix plus encoded
entry sequence `es`) repeats a key, decoding the `IndexMap` succeeds; the
resulting map is the insert-fold of the wire entries, it has exactly one
entry for the repeated key, that entry holds the value of the last wire
occurrence, the key order of the map is the first-occurrence
deduplication of the wire key order (so the repeated key sits at the
position of its first occurrence), and the map has strictly fewer entries
than the wire-declared count. -/
theorem dict_duplicate_keys_last_wins (fuel : Nat) (es : EntryList)
    (k : List Nat) (body rest : List Nat)
    (hwf : wfE es = true)
    (henc : encodeEntries es = .ok body)
    (hfuel : body.length ≤ fuel)
    (hlt : entLen es < 2 ^ 32)
    (hdup : 2 ≤ keyCount k es) :
    decodeIndexMap fuel (leBytes 4 (entLen es) ++ (body ++ rest)) =
      .ok (insertFold .nil es, rest) ∧
    keyCount k (insertFold .nil es) = 1 ∧
    lookupIM (insertFold .nil es) k = lastVal es k ∧
    keysOf (insertFold .nil es) = dedupFirst (keysOf es) ∧
    entLen (insertFold .nil es) < entLen es := by
  refine ⟨?_, ?_, ?_, ?_, ?_⟩
  · simp only [decodeIndexMap, Bind.bind, Except.bind,
      readU32_leBytes (entLen es) (body ++ rest) hlt]
    simp only [decodeDictLoop_rt fuel
      (fun t' bs' r' h1 h2 h3 =>
        decodeProperty_encodeProperty fuel t' bs' r' h1 h2 h3)
      es .nil body rest hwf henc hfuel]
  · have hnd := insertFold_nodup es .nil rfl
    rw [keyCount_nodup _ _ hnd, hasKey_insertFold]
    simp [keyCount_pos_hasKey es k (by omega)]
  · rw [lookup_insertFold es .nil k]
    cases lastVal es k <;> rfl
  · rw [keysOf_insertFold es .nil]
    rfl
  · rw [entLen_eq_keysOf_length, entLen_eq_keysOf_length,
      keysOf_insertFold es .nil]
    simp only [keysOf, List.nil_append]
    exact dedupSeen_length_lt (keysOf es) [] k
      (by rw [← keyCount_eq_count]; exact hdup)

theorem dict_duplicate_keys_last_wins_witness :
    decodeIndexMap 11
        (leBytes 4 (entLen (.cons [97] (.mk false .none)
          (.cons [97] (.mk false (.bool true)) .nil))) ++
         ([0, 1, 97, 0, 0, 0, 1, 97, 1, 0, 1] ++ [9])) =
      .ok (insertFold .nil (.cons [97] (.mk false .none)
        (.cons [97] (.mk false (.bool true)) .nil)), [9]) ∧
    keyCount [97] (insertFold .nil (.cons [97] (.mk false .none)
      (.cons [97] (.mk false (.bool true)) .nil))) = 1 ∧
    lookupIM (insertFold .nil (.cons [97] (.mk false .none)
        (.cons [97] (.mk false (.bool true)) .nil))) [97] =
      lastVal (.cons [97] (.mk false .none)
        (.cons [97] (.mk false (.bool true)) .nil)) [97] ∧
    keysOf (insertFold .nil (.cons [97] (.mk false .none)
        (.cons [97] (.mk false (.bool true)) .nil))) =
      dedupFirst (keysOf (.cons [97] (.mk false .none)
        (.cons [97] (.mk false (.bool true)) .nil))) ∧
    entLen (insertFold .nil (.cons [97] (.mk false .none)
        (.cons [97] (.mk false (.bool true)) .nil))) <
      entLen (.cons [97] (.mk false .none)
        (.cons [97] (.mk false (.bool true)) .nil)) :=
  dict_duplicate_keys_last_wins 11
    (.cons [97] (.mk false .none) (.cons [97] (.mk false (.bool true)) .nil))
    [97] [0, 1, 97, 0, 0, 0, 1, 97, 1, 0, 1] [9]
    (by decide) rfl (by decide) (by decide) (by decide)

/-! ### C9: the string length prefix -/

/-- C9: a string of length at most 254 encodes its length as that single
byte; a string of length 255 or more (and below 2^32, the `u32` range of
`len as u32`) encodes the byte `0xFF` followed by the 4-byte little-endian
length; and `read_optimized_u32` inverts `write_optimized_u32` exactly. -/
theorem string_length_prefix_rule (s : List Nat) (v : Nat) (r : List Nat) :
    (s.length ≤ 254 → encodeString s = 0 :: s.length :: s) ∧
    (255 ≤ s.length → s.length < 2 ^ 32 →
      encodeString s = 0 :: 255 :: (leBytes 4 s.length ++ s)) ∧
    (v < 2 ^ 32 → read_optimized_u32 (write_optimized_u32 v ++ r) = .ok (v, r)) := by
  refine ⟨fun h => ?_, fun h1 h2 => ?_, fun h => read_write_optimized_u32 v r h⟩
  · have hm : s.length % 4294967296 = s.length := Nat.mod_eq_of_lt (by omega)
    simp [encodeString, write_optimized_u32, hm, if_pos (show s.length < 255 by omega)]
  · have hm : s.length % 4294967296 = s.length := Nat.mod_eq_of_lt (by omega)
    simp [encodeString, write_optimized_u32, hm, if_neg (show ¬ s.length < 255 by omega)]

theorem string_length_prefix_rule_witness :
    encodeString [65] = 0 :: [65].length :: [65] ∧
    encodeString (List.replicate 255 65) =
      0 :: 255 :: (leBytes 4 (List.replicate 255 65 : List Nat).length ++
        List.replicate 255 65) ∧
    read_optimized_u32 (write_optimized_u32 5 ++ [9]) = .ok (5, [9]) :=
  ⟨(string_length_prefix_rule [65] 5 [9]).1 (by decide),
   (string_length_prefix_rule (List.replicate 255 65) 5 [9]).2.1 (by decide) (by decide),
   (string_length_prefix_rule [65] 5 [9]).2.2 (by decide)⟩

/-! ### C7: unknown tag bytes are rejected -/

/-- C7: any tag byte outside the known set {0,…,6} makes `Property::decode`
return the `"Unknown type"` format error naming that tag; no panic, no
default-valued node. -/
theorem unknown_tag_format_error (fuel tag flagByte : Nat) (rest : List Nat)
    (h7 : 7 ≤ tag) (h256 : tag < 256) :
    decodeProperty (fuel + 1) (tag :: flagByte :: rest) =
      .error (.unknownType tag) := by
  obtain ⟨k, rfl⟩ : ∃ k, tag = k + 7 := ⟨tag - 7, by omega⟩
  have hm : (k + 7) % 256 = k + 7 := Nat.mod_eq_of_lt h256
  simp [decodeProperty, readU8, hm, Bind.bind, Except.bind]

theorem unknown_tag_format_error_witness :
    7 ≤ 7 ∧ 7 < 256 ∧
      decodeProperty 1 [7, 0] = .error (.unknownType 7) :=
  ⟨by decide, by decide, unknown_tag_format_error 0 7 0 [] (by decide) (by decide)⟩

/-! ### C8: the loose-boolean rule and its three sites -/

/-- C8: a byte decodes to true under the loose-boolean rule exactly when it
is 1 (so 0, 2 and 255 all decode to false), and that rule is what the
decoder applies to the `Bool` payload byte, to the `any_flag` byte of a
property header, and to the is-empty byte of a string. -/
theorem loose_bool_rule_and_sites (b fuel : Nat) (rest : List Nat) (hb : b < 256) :
    (loose_bool b = true ↔ b = 1) ∧
    decodeBool (b :: rest) = .ok (loose_bool b, rest) ∧
    decodeProperty (fuel + 1) (0 :: b :: rest) =
      .ok (.mk (loose_bool b) .none, rest) ∧
    decodeString (b :: rest) = decodeString (loose_bool_byte (loose_bool b) :: rest) := by
  have hm : b % 256 = b := Nat.mod_eq_of_lt hb
  refine ⟨by simp [loose_bool], ?_, ?_, ?_⟩
  · simp [decodeBool, readU8, hm, Bind.bind, Except.bind]
  · simp [decodeProperty, readU8, hm, Bind.bind, Except.bind]
  · by_cases h1 : b = 1
    · subst h1; rfl
    · have hlb : loose_bool b = false := by simp [loose_bool, h1]
      simp [decodeString, readU8, hm, hlb, loose_bool_byte, loose_bool, h1,
        Bind.bind, Except.bind]

theorem loose_bool_rule_and_sites_witness :
    2 < 256 ∧
    ((loose_bool 2 = true ↔ 2 = 1) ∧
      decodeBool [2, 9] = .ok (loose_bool 2, [9]) ∧
      decodeProperty 1 [0, 2, 9] = .ok (.mk (loose_bool 2) .none, [9]) ∧
      decodeString [2, 9] = decodeString (loose_bool_byte (loose_bool 2) :: [9])) :=
  ⟨by decide, loose_bool_rule_and_sites 2 0 [9] (by decide)⟩

/-! ### C5: decoding tag 4 (List) -/

/-- C5 (corrected): decoding a property whose tag byte is 4 aborts the whole
decode by reaching the `todo!()` panic of `Vec<Property>::decode` — modelled
by the distinguished outcome `panicTodo` — for every flag byte and payload.
No partial tree is returned, but the failure is a panic, not a returned
`UnimplementedVariant` error value. -/
theorem decode_list_tag_panics (fuel flagByte : Nat) (payload : List Nat) :
    decodeProperty (fuel + 1) (4 :: flagByte :: payload) = .error .panicTodo := rfl

/-- C5 counterexample: on a concrete stream whose root property has tag 4,
the whole decode ends in the `todo!()` panic marker `panicTodo` (the model's
image of a Rust panic), not in a gracefully returned error value as the
claim states. -/
theorem decode_list_tag_is_panic_not_error :
    decodeSettings [0, 0, 0, 0, 0, 0, 0, 0, 0, 4, 0, 9] = .error .panicTodo ∧
    DErr.panicTodo ≠ DErr.unknownType 4 :=
  ⟨rfl, by decide⟩

/-! ### C4 counterexample: encoding a tree containing a List panics -/

/-- C4 counterexample: `Settings::encode` on a tree containing a `List`
variant reaches the `todo!()` panic of `Vec<Property>::encode` — it neither
returns `Ok` nor an I/O error. -/
theorem encode_list_panics :
    encodeSettings ⟨⟨1, 1, 82, 4⟩, .mk false (.list [])⟩ = .error .panicTodo := rfl

/-! ### C1 counterexample: re-encoding is not byte-identical -/

/-- C1 counterexample: the stream below decodes successfully (consuming all
of it); its `any_flag` byte is 2, which the loose-boolean rule decodes to
false, and re-encoding writes that flag back as 0 — so the re-encoded bytes
differ from the consumed prefix of the input. -/
theorem reencode_not_byte_identical :
    decodeSettings [1, 0, 1, 0, 82, 0, 4, 0, 0, 0, 2] =
      .ok (⟨⟨1, 1, 82, 4⟩, .mk false .none⟩, []) ∧
    encodeSettings ⟨⟨1, 1, 82, 4⟩, .mk false .none⟩ =
      .ok [1, 0, 1, 0, 82, 0, 4, 0, 0, 0, 0] ∧
    ([1, 0, 1, 0, 82, 0, 4, 0, 0, 0, 0] : List Nat) ≠
      [1, 0, 1, 0, 82, 0, 4, 0, 0, 0, 2] :=
  ⟨rfl, rfl, by decide⟩

/-! ### The settings projection (`simple.rs`) -/

/-- `ModSettingsValue` (`simple.rs`): the closed set of editable setting
values, exactly the five variants the enum declares.  `simple.rs` calls
the f64 variant `Number`; `codec.rs` refers to the same payload as
`Double` when building trees in `from_simple`, and additionally matches a
`ModSettingsValue::Integer` variant that this enum does not declare — the
two files of the snapshot disagree, and the declaration in `simple.rs` is
embedded as written. -/
inductive ModSettingsValue where
  | none
  | bool (b : Bool)
  | number (bits : Nat)
  | string (s : List Nat)
  | color (r g b a : Nat)
deriving DecidableEq, Repr

/-- `ModSettings` (`simple.rs`): a version and three ordered sections. -/
structure ModSettings where
  factorio_version : FactorioVersion
  startup : List (List Nat × ModSettingsValue)
  runtime_global : List (List Nat × ModSettingsValue)
  runtime_per_user : List (List Nat × ModSettingsValue)
deriving DecidableEq, Repr

/-- A Color channel, used to name projection errors. -/
inductive Channel where
  | r
  | g
  | b
  | a
deriving DecidableEq, Repr

/-- Projection failure, one constructor per distinct `anyhow!` site in
`simple.rs`: `missingSection`/`sectionNotDictionary` from
`property_map_parse`, `rootNotDictionary` from `ModSettings::try_from`,
and the rest from `ModSettingsValue::try_from` (`missingChannel c` and
`channelNotNumber c` carry the channel the error message names). -/
inductive ProjErr where
  | missingSection (key : List Nat)
  | sectionNotDictionary (key : List Nat)
  | rootNotDictionary
  | missingValueKey
  | missingChannel (c : Channel)
  | channelNotNumber (c : Channel)
  | invalidValueType
  | notDictionary
deriving DecidableEq, Repr

/-- UTF-8 bytes of `"startup"`. -/
def keyStartup : List Nat := [115, 116, 97, 114, 116, 117, 112]

/-- UTF-8 bytes of `"runtime-global"`. -/
def keyRuntimeGlobal : List Nat :=
  [114, 117, 110, 116, 105, 109, 101, 45, 103, 108, 111, 98, 97, 108]

/-- UTF-8 bytes of `"runtime-per-user"`. -/
def keyRuntimePerUser : List Nat :=
  [114, 117, 110, 116, 105, 109, 101, 45, 112, 101, 114, 45, 117, 115, 101, 114]

/-- UTF-8 bytes of `"value"`. -/
def keyValue : List Nat := [118, 97, 108, 117, 101]

/-- UTF-8 bytes of `"r"`. -/
def keyR : List Nat := [114]

/-- UTF-8 bytes of `"g"`. -/
def keyG : List Nat := [103]

/-- UTF-8 bytes of `"b"`. -/
def keyB : List Nat := [98]

/-- UTF-8 bytes of `"a"`. -/
def keyA : List Nat := [97]

/-- `impl TryFrom<&Property> for ModSettingsValue` (`simple.rs`).  The
`Number` arm of the Rust match is the f64 leaf (`double` here).  Note
that all four Color channel lookups read the key `"r"`, exactly as the
source does — only the error messages name g, b and a — and that the
catch-all arm (reached for `None`, `List` and `Integer` inner values)
is the `"Invalid type for value parameter"` error. -/
def tryFromProperty (value : Property) : Except ProjErr ModSettingsValue :=
  match value.value with
  | .dictionary dict =>
      match lookupIM dict keyValue with
      | none => .error .missingValueKey
      | some inner =>
          match inner.value with
          | .bool b => .ok (.bool b)
          | .double n => .ok (.number n)
          | .string s => .ok (.string s)
          | .dictionary d =>
              match lookupIM d keyR with
              | none => .error (.missingChannel .r)
              | some pr =>
                  match pr.value with
                  | .double rv =>
                      match lookupIM d keyR with
                      | none => .error (.missingChannel .g)
                      | some pg =>
                          match pg.value with
                          | .double gv =>
                              match lookupIM d keyR with
                              | none => .error (.missingChannel .b)
                              | some pb =>
                                  match pb.value with
                                  | .double bv =>
                                      match lookupIM d keyR with
                                      | none => .error (.missingChannel .a)
                                      | some pa =>
                                          match pa.value with
                                          | .double av =>
                                              .ok (.color rv gv bv av)
                                          | _ => .error (.channelNotNumber .a)
                                  | _ => .error (.channelNotNumber .b)
                          | _ => .error (.channelNotNumber .g)
                  | _ => .error (.channelNotNumber .r)
          | _ => .error .invalidValueType
  | _ => .error .notDictionary

/-- Ordered-map insert on the flat section representation (same
`IndexMap::insert` semantics as `insertIM`). -/
def msInsert : List (List Nat × ModSettingsValue) → List Nat →
    ModSettingsValue → List (List Nat × ModSettingsValue)
  | [], k, v => [(k, v)]
  | (k0, v0) :: tl, k, v =>
      if k0 = k then (k0, v) :: tl else (k0, v0) :: msInsert tl k v

/-- The `.map(...).collect::<Result<IndexMap<_, _>, _>>()` loop of
`property_map_parse`: convert each entry in order, short-circuit on the
first error, insert the successes into a fresh ordered map. -/
def collectSection : EntryList → List (List Nat × ModSettingsValue) →
    Except ProjErr (List (List Nat × ModSettingsValue))
  | .nil, acc => .ok acc
  | .cons k v tl, acc => do
      let mv ← tryFromProperty v
      collectSection tl (msInsert acc k mv)

/-- `property_map_parse` (`simple.rs`). -/
def property_map_parse (root : EntryList) (key : List Nat) :
    Except ProjErr (List (List Nat × ModSettingsValue)) :=
  match lookupIM root key with
  | none => .error (.missingSection key)
  | some p =>
      match p.value with
      | .dictionary map => collectSection map []
      | _ => .error (.sectionNotDictionary key)

/-- `impl TryFrom<&Settings> for ModSettings` (`simple.rs`). -/
def tryFromSettings (value : Settings) : Except ProjErr ModSettings :=
  match value.properties.value with
  | .dictionary root => do
      let startup ← property_map_parse root keyStartup
      let runtime_global ← property_map_parse root keyRuntimeGlobal
      let runtime_per_user ← property_map_parse root keyRuntimePerUser
      .ok ⟨value.version, startup, runtime_global, runtime_per_user⟩
  | _ => .error .rootNotDictionary

/-- The per-entry tree shape `{ "value": <leaf> }` built by
`Settings::convert_simple_index_map` (`codec.rs`); the Color case expands
to the 4-entry `r`/`g`/`b`/`a` dictionary of Double leaves.  The Rust
match also has an `Integer` arm, but `simple.rs` declares no such
variant, so it has no counterpart here. -/
def simple_prop_value : ModSettingsValue → PropertyValue
  | .none => .none
  | .bool b => .bool b
  | .number f => .double f
  | .string str => .string str
  | .color r g b a =>
      .dictionary (insertIM (insertIM (insertIM
        (insertIM .nil keyR (.mk false (.double r)))
        keyG (.mk false (.double g)))
        keyB (.mk false (.double b)))
        keyA (.mk false (.double a)))

def simple_entry_property (v : ModSettingsValue) : Property :=
  .mk false (.dictionary (insertIM .nil keyValue (.mk false (simple_prop_value v))))

/-- The per-section loop of `Settings::convert_simple_index_map`:
insert one `{ "value": … }` node per entry, in order. -/
def section_entries (map : List (List Nat × ModSettingsValue)) : EntryList :=
  map.foldl (fun acc kv => insertIM acc kv.1 (simple_entry_property kv.2)) .nil

/-- `Settings::convert_simple_index_map` (`codec.rs`). -/
def convert_simple_index_map (map : List (List Nat × ModSettingsValue)) :
    Property :=
  .mk false (.dictionary (section_entries map))

/-- `Settings::from_simple` (`codec.rs`). -/
def from_simple (simple : ModSettings) : Settings :=
  let startup_properties := convert_simple_index_map simple.startup
  let runtime_properties := convert_simple_index_map simple.runtime_global
  let runtime_per_user_properties :=
    convert_simple_index_map simple.runtime_per_user
  ⟨simple.factorio_version,
    .mk false (.dictionary (insertIM (insertIM
      (insertIM .nil keyStartup startup_properties)
      keyRuntimeGlobal runtime_properties)
      keyRuntimePerUser runtime_per_user_properties))⟩

/-! ### C3: the Color channel lookups -/

/-- C3 (code bug): the projection does not look up the four channels
independently — it reads the key `"r"` for all of g, b and a, exactly as
the copy-pasted source does.  First conjunct: a Color dictionary with the
four distinct channel values 10/20/30/40 projects to `Color{10,10,10,10}`,
every channel carrying r's value.  Second conjunct: a dictionary in which
g, b and a are entirely missing still projects successfully (to r's value
four times) instead of failing with an error naming the missing
channel. -/
theorem color_channels_all_read_r :
    tryFromProperty (.mk false (.dictionary (insertIM .nil keyValue (.mk false
      (.dictionary (insertIM (insertIM (insertIM
        (insertIM .nil keyR (.mk false (.double 10)))
        keyG (.mk false (.double 20)))
        keyB (.mk false (.double 30)))
        keyA (.mk false (.double 40)))))))) =
      .ok (.color 10 10 10 10) ∧
    tryFromProperty (.mk false (.dictionary (insertIM .nil keyValue (.mk false
      (.dictionary (insertIM .nil keyR (.mk false (.double 10)))))))) =
      .ok (.color 10 10 10 10) :=
  ⟨rfl, rfl⟩

/-! ### C6: Integer leaves in the projection -/

/-- C6 (code bug): an inner `value` Property that is an Integer leaf does
not project to an Integer setting value — `ModSettingsValue` in
`simple.rs` has no Integer variant at all, and the Integer leaf falls
into the catch-all `"Invalid type for value parameter"` error (while
`from_simple` in `codec.rs` and the `complex_2_0` test presuppose that
the variant exists). -/
theorem integer_leaf_projection_errors :
    tryFromProperty (.mk false (.dictionary (insertIM .nil keyValue
      (.mk false (.integer 7))))) = .error .invalidValueType := rfl

/-! ### C2: the projection roundtrip -/

/-- The values whose `{ "value": … }` tree survives the projection
roundtrip: `None` is excluded (the projection's catch-all rejects a
`None` inner value), and a Color survives only with all channels equal
to `r` (the projection reads the key `"r"` for every channel). -/
def representableOk : ModSettingsValue → Bool
  | .none => false
  | .bool _ => true
  | .number _ => true
  | .string _ => true
  | .color r g b a => decide (g = r) && decide (b = r) && decide (a = r)

/-- A well-formed section: unique keys (the `IndexMap` invariant) and
roundtrip-representable values. -/
def sectionOk (m : List (List Nat × ModSettingsValue)) : Bool :=
  decide (m.map Prod.fst).Nodup && m.all (fun kv => representableOk kv.2)

def wfSimple (s : ModSettings) : Bool :=
  sectionOk s.startup && sectionOk s.runtime_global && sectionOk s.runtime_per_user

/-- The literal entry sequence a section produces when its keys are
distinct (no insert ever hits an existing key). -/
def entriesLit : List (List Nat × ModSettingsValue) → EntryList
  | [] => .nil
  | (k, v) :: tl => .cons k (simple_entry_property v) (entriesLit tl)

theorem tryFromProperty_simple_entry (v : ModSettingsValue)
    (h : representableOk v = true) :
    tryFromProperty (simple_entry_property v) = .ok v := by
  cases v with
  | none => simp [representableOk] at h
  | bool b => rfl
  | number n => rfl
  | string str => rfl
  | color r g b a =>
      simp only [representableOk, Bool.and_eq_true, decide_eq_true_eq] at h
      obtain ⟨⟨hg, hb⟩, ha⟩ := h
      subst hg; subst hb; subst ha
      rfl

theorem section_entries_fold : ∀ (m : List (List Nat × ModSettingsValue))
    (acc : EntryList),
    (m.map Prod.fst).Nodup →
    (∀ k, k ∈ m.map Prod.fst → hasKey acc k = false) →
    m.foldl (fun acc kv => insertIM acc kv.1 (simple_entry_property kv.2)) acc =
      entAppend acc (entriesLit m)
  | [], acc, _, _ => by simp [entriesLit, entAppend_nil]
  | (k, v) :: tl, acc, hnd, hdisj => by
      simp only [List.map_cons, List.nodup_cons] at hnd
      have hacc : hasKey acc k = false := hdisj k (by simp)
      have hstep : ∀ k', k' ∈ tl.map Prod.fst →
          hasKey (entAppend acc (.cons k (simple_entry_property v) .nil)) k' =
            false := by
        intro k' hk'
        rw [hasKey_entAppend]
        have hy : hasKey acc k' = false := hdisj k' (by simp [hk'])
        have hz : ¬ k = k' := fun he => hnd.1 (he ▸ hk')
        simp [hy, hasKey, hz]
      show tl.foldl _ (insertIM acc k (simple_entry_property v)) = _
      rw [insertIM_of_not_hasKey _ _ _ hacc,
        section_entries_fold tl _ hnd.2 hstep, entAppend_assoc]
      rfl

theorem section_entries_eq (m : List (List Nat × ModSettingsValue))
    (hnd : (m.map Prod.fst).Nodup) : section_entries m = entriesLit m := by
  have h := section_entries_fold m .nil hnd (fun _ _ => rfl)
  simpa [section_entries, entAppend] using h

theorem msInsert_not_mem (acc : List (List Nat × ModSettingsValue))
    (k : List Nat) (v : ModSettingsValue) (h : k ∉ acc.map Prod.fst) :
    msInsert acc k v = acc ++ [(k, v)] := by
  induction acc with
  | nil => rfl
  | cons hd tl ih =>
      obtain ⟨k0, v0⟩ := hd
      simp only [List.map_cons, List.mem_cons, not_or] at h
      simp only [msInsert]
      rw [if_neg (Ne.symm h.1), ih h.2]
      rfl

theorem collect_entriesLit : ∀ (m acc : List (List Nat × ModSettingsValue)),
    (m.all fun kv => representableOk kv.2) = true →
    (m.map Prod.fst).Nodup →
    (∀ k, k ∈ m.map Prod.fst → k ∉ acc.map Prod.fst) →
    collectSection (entriesLit m) acc = .ok (acc ++ m)
  | [], acc, _, _, _ => by simp [entriesLit, collectSection]
  | (k, v) :: tl, acc, hall, hnd, hdisj => by
      simp only [List.all_cons, Bool.and_eq_true] at hall
      simp only [List.map_cons, List.nodup_cons] at hnd
      show (do
        let mv ← tryFromProperty (simple_entry_property v)
        collectSection (entriesLit tl) (msInsert acc k mv)) = _
      rw [tryFromProperty_simple_entry v hall.1]
      show collectSection (entriesLit tl) (msInsert acc k v) = _
      rw [msInsert_not_mem acc k v (fun hm => hdisj k (by simp) hm),
        collect_entriesLit tl (acc ++ [(k, v)]) hall.2 hnd.2 ?_,
        List.append_assoc]
      · rfl
      · intro k' hk'
        simp only [List.map_append, List.mem_append, not_or]
        exact ⟨hdisj k' (by simp [hk']), by
          simp only [List.map_cons, List.map_nil, List.mem_cons,
            List.not_mem_nil, or_false]
          exact fun he => hnd.1 (he ▸ hk')⟩

/-- C2 counterexample: the projection roundtrip is not the identity on
the claimed variant set.  A `None` entry round-trips to the hard error
`"Invalid type for value parameter"` (the projection has no arm for a
`None` inner value), and a Color entry with distinct channels
`{1,2,3,4}` round-trips to `{1,1,1,1}` — r's value in every channel —
which differs from the original record. -/
theorem simple_roundtrip_fails_none_and_color :
    tryFromSettings (from_simple ⟨⟨1, 1, 82, 4⟩, [([110], .none)], [], []⟩) =
      .error .invalidValueType ∧
    tryFromSettings (from_simple
        ⟨⟨1, 1, 82, 4⟩, [], [([99], .color 1 2 3 4)], []⟩) =
      .ok ⟨⟨1, 1, 82, 4⟩, [], [([99], .color 1 1 1 1)], []⟩ ∧
    (⟨⟨1, 1, 82, 4⟩, [], [([99], .color 1 1 1 1)], []⟩ : ModSettings) ≠
      ⟨⟨1, 1, 82, 4⟩, [], [([99], .color 1 2 3 4)], []⟩ :=
  ⟨rfl, rfl, by decide⟩

/-- C2 (corrected): for every SimpleSettings record whose sections have
unique keys and whose entries use only the variants that actually
survive the projection — Bool, Number, String, and Color with all four
channels equal (None is rejected by the projection's catch-all, and a
Color with distinct channels comes back with every channel set to `r`) —
projecting to a raw tree with `Settings::from_simple` and back with
`ModSettings::try_from` succeeds and returns the original record. -/
theorem simple_roundtrip_restricted (s : ModSettings)
    (h : wfSimple s = true) :
    tryFromSettings (from_simple s) = .ok s := by
  obtain ⟨⟨h1, h2⟩, h3⟩ : (sectionOk s.startup = true ∧
      sectionOk s.runtime_global = true) ∧
      sectionOk s.runtime_per_user = true := by
    simpa [wfSimple, Bool.and_eq_true] using h
  simp only [sectionOk, Bool.and_eq_true, decide_eq_true_eq] at h1 h2 h3
  have e1 : collectSection (section_entries s.startup) [] = .ok s.startup := by
    rw [section_entries_eq _ h1.1]
    simpa using collect_entriesLit s.startup [] h1.2 h1.1 (fun k _ => by simp)
  have e2 : collectSection (section_entries s.runtime_global) [] =
      .ok s.runtime_global := by
    rw [section_entries_eq _ h2.1]
    simpa using collect_entriesLit s.runtime_global [] h2.2 h2.1
      (fun k _ => by simp)
  have e3 : collectSection (section_entries s.runtime_per_user) [] =
      .ok s.runtime_per_user := by
    rw [section_entries_eq _ h3.1]
    simpa using collect_entriesLit s.runtime_per_user [] h3.2 h3.1
      (fun k _ => by simp)
  have l1 : lookupIM (insertIM (insertIM (insertIM .nil keyStartup
      (convert_simple_index_map s.startup)) keyRuntimeGlobal
      (convert_simple_index_map s.runtime_global)) keyRuntimePerUser
      (convert_simple_index_map s.runtime_per_user)) keyStartup =
      some (convert_simple_index_map s.startup) := rfl
  have l2 : lookupIM (insertIM (insertIM (insertIM .nil keyStartup
      (convert_simple_index_map s.startup)) keyRuntimeGlobal
      (convert_simple_index_map s.runtime_global)) keyRuntimePerUser
      (convert_simple_index_map s.runtime_per_user)) keyRuntimeGlobal =
      some (convert_simple_index_map s.runtime_global) := rfl
  have l3 : lookupIM (insertIM (insertIM (insertIM .nil keyStartup
      (convert_simple_index_map s.startup)) keyRuntimeGlobal
      (convert_simple_index_map s.runtime_global)) keyRuntimePerUser
      (convert_simple_index_map s.runtime_per_user)) keyRuntimePerUser =
      some (convert_simple_index_map s.runtime_per_user) := rfl
  show tryFromSettings ⟨s.factorio_version, .mk false (.dictionary
    (insertIM (insertIM (insertIM .nil keyStartup
      (convert_simple_index_map s.startup)) keyRuntimeGlobal
      (convert_simple_index_map s.runtime_global)) keyRuntimePerUser
      (convert_simple_index_map s.runtime_per_user)))⟩ = .ok s
  simp only [tryFromSettings, Property.value, property_map_parse, l1, l2, l3,
    Bind.bind, Except.bind]
  simp only [convert_simple_index_map, Property.value, e1, e2, e3]

theorem simple_roundtrip_restricted_witness :
    wfSimple ⟨⟨1, 1, 82, 4⟩, [([120], .bool true)],
      [([99], .color 5 5 5 5)], [([122], .number 7)]⟩ = true ∧
    tryFromSettings (from_simple ⟨⟨1, 1, 82, 4⟩, [([120], .bool true)],
        [([99], .color 5 5 5 5)], [([122], .number 7)]⟩) =
      .ok ⟨⟨1, 1, 82, 4⟩, [([120], .bool true)],
        [([99], .color 5 5 5 5)], [([122], .number 7)]⟩ :=
  ⟨by decide, simple_roundtrip_restricted _ (by decide)⟩

end FactorioSettings
